import Mathlib

/-!
Verification of the Noble Raffle winner-selection pipeline.

The development shallowly embeds the two Python variants of `raffle.py`:
the base variant (`src/raffle.py`, 90/10 golden/base split) and the
preference-aware variant (`src/raffles/noble-raffle-038/raffle.py`,
100% golden split with participate / declined / no-preference tiers).

Python integers are modelled as `Int` (or `Nat` where the source value is a
count), Python lists as `List`, Python dicts built from CSV rows as
association lists with last-binding-wins lookup (`dictGet`), and the float
expression `int(0.9 * supply)` by an exact dyadic-rational model of IEEE-754
binary64 round-to-nearest-even arithmetic (`Dyadic`, `roundSig`, `dtrunc`),
which is value-exact for every magnitude reachable in this program (no
overflow or subnormal handling is needed in that range).

The process-wide generator seeded by `random.seed(f"NobleRaffle-{hash}")` and
consumed by `random.sample` is modelled by an explicit generator state
threaded through the pipeline.  Modelled from the spec: §4.3 fixes the
sampler contract (draws `k` entries without replacement, fails when `k`
exceeds the pool size, driven by a generator seeded once from the prefix and
the seed string) but flags the exact generator algorithm (CPython's Mersenne
Twister) as an implementation-specific portability boundary; we therefore fix
one concrete Fisher-Yates-style partial shuffle driven by a 64-bit LCG.
`random.sample` also rejects negative sample sizes, which the model keeps.
-/

/-- An ownership snapshot record `(address, token_id, balance)` as produced
by `read_csv` in `main` after `int` conversion of `token_id` and `balance`. -/
structure OwnershipRecord where
  address : String
  token_id : ℤ
  balance : ℤ
  deriving DecidableEq, Repr

/-- `IGNORED_ADDRESSES` from `raffle.py` (burn wallets and treasury). -/
def IGNORED_ADDRESSES : List String :=
  ["0x0000000000000000000000000000000000000000",
   "0x000000000000000000000000000000000000dead",
   "0x1fd8df37b360d7366db649703014e637ee214f4a"]

/-- `LETS_PLAY_TOKEN_ID = 34` from `raffle.py`. -/
def LETS_PLAY_TOKEN_ID : ℤ := 34

/-- The owner filter in `main`:
`[... for address, token_id, balance in read_csv(...) if address not in IGNORED_ADDRESSES]`. -/
def filterIgnored (rows : List OwnershipRecord) : List OwnershipRecord :=
  rows.filter (fun r => !(IGNORED_ADDRESSES.contains r.address))

/-- The entry-building loop of `raffle` (lines 48-54 of both variants):
golden-token records contribute `balance` copies of their address to the
Let's Play pool (`[address] * balance`, so a non-positive balance contributes
nothing, as in Python); every other record contributes a single entry to the
base pool.  Returns `(lps_entries, base_entries)`. -/
def buildEntries (owners : List OwnershipRecord) : List String × List String :=
  owners.foldl
    (fun pools r =>
      if r.token_id = LETS_PLAY_TOKEN_ID then
        (pools.1 ++ List.replicate r.balance.toNat r.address, pools.2)
      else
        (pools.1, pools.2 ++ [r.address]))
    ([], [])

/-- Lookup in a Python dict built with `dict(pairs)` or a dict comprehension
over `pairs`: the last binding of a key wins. -/
def dictGet {β : Type} (kvs : List (String × β)) (a : String) : Option β :=
  kvs.foldl (fun acc kv => if kv.1 = a then some kv.2 else acc) none

/-- The preference partition of the golden pool (lines 58-60 of the
preference-aware variant).  Returns
`(participate, dont_participate, no_preference)`:
entries whose address maps to `True`, entries whose address is present and
maps to `False`, and entries whose address is absent from the map. -/
def partitionPrefs (pool : List String) (opts : List (String × Bool)) :
    List String × List String × List String :=
  (pool.filter (fun a => dictGet opts a == some true),
   pool.filter (fun a => dictGet opts a == some false),
   pool.filter (fun a => (dictGet opts a).isNone))

/-- Python `str.lower()` restricted to its ASCII action, the case arising for
the `true`/`false` column of the raffle-options table. -/
def strLower (s : String) : String := ⟨s.data.map Char.toLower⟩

/-- The raffle-options row parser of `read_csv(path, for_raffle_options=True)`
(lines 202-204): `yield row[0], row[1].lower() == 'true'`. -/
def parseOptionRow (row : String × String) : String × Bool :=
  (row.1, strLower row.2 == "true")

/-- Generator state.  Modelled from the spec: the reference generator
(CPython's Mersenne Twister) is an implementation-specific boundary, so the
state is one 64-bit word. -/
abbrev Gen : Type := ℕ

/-- One step of the modelled generator: a 64-bit LCG.  Returns the drawn
word and the next state. -/
def genNext (g : Gen) : ℕ × Gen :=
  let g2 : ℕ := (6364136223846793005 * g + 1442695040888963407) % 2 ^ 64
  (g2 / 2 ^ 32, g2)

/-- Seeding from a string, modelling `random.seed(f"NobleRaffle-{hash}")`:
the state is a pure function of the seed string. -/
def seedGen (s : String) : Gen :=
  s.data.foldl (fun h c => (h * 31 + c.toNat + 1) % 2 ^ 64) 5381

/-- Fisher-Yates-style partial shuffle drawing `k` entries without
replacement: each step draws a position in the remaining pool, emits the
entry there and removes it. -/
def sampleAux : ℕ → List String → Gen → List String × Gen
  | 0, _, g => ([], g)
  | k + 1, pool, g =>
    let rg := genNext g
    let i := rg.1 % pool.length
    let rest := sampleAux k (pool.eraseIdx i) rg.2
    (pool.getD i "" :: rest.1, rest.2)

/-- `random.sample(pool, k)` with a Python-int `k`: raises `ValueError`
("Sample larger than population or is negative"), modelled as `none`, when
`k` is negative or exceeds the pool length; otherwise draws `k` entries
without replacement and advances the generator. -/
def sampleZ (g : Gen) (pool : List String) (k : ℤ) : Option (List String) × Gen :=
  if 0 ≤ k ∧ k ≤ (pool.length : ℤ) then
    let res := sampleAux k.toNat pool g
    (some res.1, res.2)
  else
    (none, g)

/-- The tiered golden draw of the preference-aware variant (lines 62-73):
sample from `participate` if it can fill the quota alone, otherwise take all
of `participate` and top up from `no_preference`, then from
`dont_participate`.  Any failed `random.sample` call aborts the draw. -/
def drawGolden (g : Gen) (participate dont_participate no_preference : List String)
    (lp_picks : ℤ) : Option (List String) × Gen :=
  if (participate.length : ℤ) ≥ lp_picks then
    sampleZ g participate lp_picks
  else
    let remaining : ℤ := lp_picks - (participate.length : ℤ)
    if (no_preference.length : ℤ) ≥ remaining then
      match sampleZ g no_preference remaining with
      | (some w, g1) => (some (participate ++ w), g1)
      | (none, g1) => (none, g1)
    else
      match sampleZ g dont_participate (remaining - (no_preference.length : ℤ)) with
      | (some w, g1) => (some (participate ++ (no_preference ++ w)), g1)
      | (none, g1) => (none, g1)

/-- A dyadic rational `num * 2 ^ exp`, the value class of IEEE-754 binary64
numbers in the normal range. -/
structure Dyadic where
  num : ℤ
  exp : ℤ
  deriving DecidableEq, Repr

/-- Bit length of a natural number (`0` for `0`). -/
def nbits (n : ℕ) : ℕ := if n = 0 then 0 else Nat.log2 n + 1

/-- Round-to-nearest-even right shift: rounds `m / 2 ^ s` to the nearest
integer, breaking ties towards the even neighbour. -/
def rshiftNE (m s : ℕ) : ℕ :=
  if s = 0 then m
  else
    let q := m / 2 ^ s
    let r := m % 2 ^ s
    if r < 2 ^ (s - 1) then q
    else if 2 ^ (s - 1) < r then q + 1
    else if q % 2 = 0 then q else q + 1

/-- Round `n * 2 ^ e` to a 53-bit significand, the IEEE-754 binary64
round-to-nearest-even rounding in the normal range. -/
def roundSig (n : ℤ) (e : ℤ) : Dyadic :=
  let a := n.natAbs
  let b := nbits a
  if b ≤ 53 then ⟨n, e⟩
  else
    let s := b - 53
    if n < 0 then ⟨-((rshiftNE a s : ℕ) : ℤ), e + (s : ℤ)⟩
    else ⟨((rshiftNE a s : ℕ) : ℤ), e + (s : ℤ)⟩

/-- Conversion of a Python int to a binary64 value (exact up to 53 bits,
rounded to nearest even beyond). -/
def toDouble (t : ℤ) : Dyadic := roundSig t 0

/-- Binary64 multiplication: the exact product, rounded once. -/
def dmul (x y : Dyadic) : Dyadic := roundSig (x.num * y.num) (x.exp + y.exp)

/-- The binary64 value of the literal `0.9`:
`8106479329266893 * 2 ^ (-53) = 0.90000000000000002220446...`. -/
def float09 : Dyadic := ⟨8106479329266893, -53⟩

/-- Python `int()` on a binary64 value: truncation towards zero. -/
def dtrunc (x : Dyadic) : ℤ :=
  if 0 ≤ x.exp then x.num * 2 ^ x.exp.toNat
  else if x.num < 0 then -(((x.num.natAbs / 2 ^ (-x.exp).toNat : ℕ)) : ℤ)
  else (((x.num.natAbs / 2 ^ (-x.exp).toNat : ℕ)) : ℤ)

/-- `lp_picks = int(0.9 * supply)` of the base variant (line 36). -/
def lpPicks09 (supply : ℤ) : ℤ := dtrunc (dmul float09 (toDouble supply))

/-- `lp_picks = int(1.0 * supply)` of the preference-aware variant (line 36). -/
def lpPicks10 (supply : ℤ) : ℤ := dtrunc (dmul ⟨1, 0⟩ (toDouble supply))

/-- `base_picks = supply - lp_picks` of the base variant (line 38). -/
def basePicks09 (supply : ℤ) : ℤ := supply - lpPicks09 supply

/-- `base_picks = supply - lp_picks` of the preference-aware variant (line 38). -/
def basePicks10 (supply : ℤ) : ℤ := supply - lpPicks10 supply

/-- Lexicographic comparison of strings by code point, the order Python's
`sort`/`sorted` uses on strings. -/
def charsLe : List Char → List Char → Bool
  | [], _ => true
  | _ :: _, [] => false
  | a :: as, b :: bs =>
    if a.toNat < b.toNat then true
    else if b.toNat < a.toNat then false
    else charsLe as bs

/-- String comparison by code points. -/
def strLe (a b : String) : Bool := charsLe a.data b.data

/-- Insertion into a sorted list, stable. -/
def insertB {α : Type} (le : α → α → Bool) (a : α) : List α → List α
  | [] => [a]
  | b :: bs => if le a b then a :: b :: bs else b :: insertB le a bs

/-- Insertion sort, a stable sort modelling Python's `sort`/`sorted`. -/
def sortByB {α : Type} (le : α → α → Bool) : List α → List α
  | [] => []
  | a :: as => insertB le a (sortByB le as)

/-- Sorting a list of winner addresses. -/
def sortStr (l : List String) : List String := sortByB strLe l

/-- Comparison of `(address, count)` rows by address; `sorted` on
`dict.items()` compares tuples, and the addresses are distinct keys. -/
def pairLe (x y : String × ℕ) : Bool := strLe x.1 y.1

/-- The `raffle` function of the base variant (`src/raffle.py`, lines 31-79),
with the two `random.sample` calls consuming the threaded generator:
90% of supply to the Let's Play pool, the rest to the base pool; each pool's
winners are sorted, then the concatenation is sorted and returned. -/
def raffleBase (g : Gen) (owners : List OwnershipRecord) (supply : ℤ) :
    Option (List String) × Gen :=
  let picks := lpPicks09 supply
  let bpicks := basePicks09 supply
  let pools := buildEntries owners
  match sampleZ g pools.1 picks with
  | (none, g1) => (none, g1)
  | (some lw, g1) =>
    match sampleZ g1 pools.2 bpicks with
    | (none, g2) => (none, g2)
    | (some bw, g2) => (some (sortStr (sortStr lw ++ sortStr bw)), g2)

/-- The `raffle` function of the preference-aware variant
(`src/raffles/noble-raffle-038/raffle.py`, lines 31-97): 100% of supply to
the golden pool via the tiered draw, the remaining `supply - lp_picks` (zero
in the exact range) from the base pool. -/
def raffle038 (g : Gen) (owners : List OwnershipRecord)
    (opts : List (String × Bool)) (supply : ℤ) : Option (List String) × Gen :=
  let picks := lpPicks10 supply
  let bpicks := basePicks10 supply
  let pools := buildEntries owners
  let parts := partitionPrefs pools.1 opts
  match drawGolden g parts.1 parts.2.1 parts.2.2 picks with
  | (none, g1) => (none, g1)
  | (some lw, g1) =>
    match sampleZ g1 pools.2 bpicks with
    | (none, g2) => (none, g2)
    | (some bw, g2) => (some (sortStr (sortStr lw ++ sortStr bw)), g2)

/-- `mint_wallet_map.get(addr, addr)`: replace a hold wallet by its mint
wallet when mapped, else leave it unchanged (line 150). -/
def remapF (mint : List (String × String)) (a : String) : String :=
  (dictGet mint a).getD a

/-- The tally dict comprehension (lines 152-154): one `(address, count)` row
per distinct remapped address, counting its occurrences. -/
def tallyPairs (remapped : List String) : List (String × ℕ) :=
  remapped.dedup.map (fun a => (a, remapped.count a))

/-- The persisted winners table (lines 150-162): remap each winner through
the mint-wallet map, tally occurrences per distinct address, and emit the
rows sorted by address. -/
def winnersTable (winners : List String) (mint : List (String × String)) :
    List (String × ℕ) :=
  sortByB pairLe (tallyPairs (winners.map (remapF mint)))

/-- The full base-variant pipeline of `main` (`src/raffle.py`): filter
ignored addresses, seed the generator from the prefix and seed string, run
the raffle, remap and tally.  `none` when a draw fails, in which case
nothing is persisted. -/
def mainBase (ownerRows : List OwnershipRecord) (mintRows : List (String × String))
    (hashStr : String) (supply : ℤ) : Option (List (String × ℕ)) :=
  match (raffleBase (seedGen ("NobleRaffle" ++ "-" ++ hashStr))
      (filterIgnored ownerRows) supply).1 with
  | none => none
  | some winners => some (winnersTable winners mintRows)

/-- The full preference-aware pipeline of `main`
(`src/raffles/noble-raffle-038/raffle.py`): additionally parses the
raffle-options rows into the preference dict. -/
def main038 (ownerRows : List OwnershipRecord) (optRows : List (String × String))
    (mintRows : List (String × String)) (hashStr : String) (supply : ℤ) :
    Option (List (String × ℕ)) :=
  match (raffle038 (seedGen ("NobleRaffle" ++ "-" ++ hashStr)) (filterIgnored ownerRows)
      (optRows.map parseOptionRow) supply).1 with
  | none => none
  | some winners => some (winnersTable winners mintRows)

/-! ### Helper lemmas about the sampler -/

theorem perm_getD_eraseIdx : ∀ (l : List String) (i : ℕ), i < l.length →
    l.Perm (l.getD i "" :: l.eraseIdx i)
  | [], i, h => by simp at h
  | a :: as, 0, _ => by simp
  | a :: as, i + 1, h => by
    have ih := perm_getD_eraseIdx as i (by simpa using h)
    simp only [List.getD_cons_succ, List.eraseIdx_cons_succ]
    exact (ih.cons a).trans (List.Perm.swap _ _ _)

theorem sampleAux_length : ∀ (k : ℕ) (pool : List String) (g : Gen), k ≤ pool.length →
    (sampleAux k pool g).1.length = k
  | 0, _, _, _ => rfl
  | k + 1, pool, g, h => by
    have hpos : 0 < pool.length := lt_of_lt_of_le (Nat.succ_pos k) h
    have hi : (genNext g).1 % pool.length < pool.length := Nat.mod_lt _ hpos
    have hlen : (pool.eraseIdx ((genNext g).1 % pool.length)).length = pool.length - 1 := by
      simp [List.length_eraseIdx, hi]
    have ih := sampleAux_length k (pool.eraseIdx ((genNext g).1 % pool.length)) (genNext g).2
      (by omega)
    simp [sampleAux, ih]

theorem sampleAux_subperm : ∀ (k : ℕ) (pool : List String) (g : Gen), k ≤ pool.length →
    (sampleAux k pool g).1.Subperm pool
  | 0, pool, _, _ => List.nil_subperm
  | k + 1, pool, g, h => by
    have hpos : 0 < pool.length := lt_of_lt_of_le (Nat.succ_pos k) h
    have hi : (genNext g).1 % pool.length < pool.length := Nat.mod_lt _ hpos
    have hlen : (pool.eraseIdx ((genNext g).1 % pool.length)).length = pool.length - 1 := by
      simp [List.length_eraseIdx, hi]
    have ih := sampleAux_subperm k (pool.eraseIdx ((genNext g).1 % pool.length)) (genNext g).2
      (by omega)
    have hcons := (List.subperm_cons (pool.getD ((genNext g).1 % pool.length) "")).2 ih
    have hperm := perm_getD_eraseIdx pool ((genNext g).1 % pool.length) hi
    simpa [sampleAux] using hcons.trans hperm.symm.subperm

theorem sampleZ_none_iff (g : Gen) (pool : List String) (k : ℤ) :
    (sampleZ g pool k).1 = none ↔ (k < 0 ∨ (pool.length : ℤ) < k) := by
  by_cases h : 0 ≤ k ∧ k ≤ (pool.length : ℤ)
  · simp only [sampleZ, if_pos h]
    constructor
    · intro hcontra
      exact absurd hcontra (by simp)
    · intro hor
      omega
  · simp only [sampleZ, if_neg h]
    constructor
    · intro _
      omega
    · intro _
      trivial

theorem sampleZ_some {g : Gen} {pool : List String} {k : ℤ} {w : List String}
    (h : (sampleZ g pool k).1 = some w) :
    0 ≤ k ∧ (w.length : ℤ) = k ∧ w.Subperm pool := by
  by_cases hc : 0 ≤ k ∧ k ≤ (pool.length : ℤ)
  · have hw : w = (sampleAux k.toNat pool g).1 := by
      simp [sampleZ, hc] at h
      exact h.symm
    have hkn : k.toNat ≤ pool.length := by omega
    refine ⟨hc.1, ?_, ?_⟩
    · rw [hw, sampleAux_length k.toNat pool g hkn]
      omega
    · rw [hw]
      exact sampleAux_subperm k.toNat pool g hkn
  · simp [sampleZ, hc] at h

theorem sampleZ_succeeds (g : Gen) (pool : List String) (k : ℤ) (h0 : 0 ≤ k)
    (hle : k ≤ (pool.length : ℤ)) :
    ∃ w, (sampleZ g pool k).1 = some w ∧ (w.length : ℤ) = k ∧ w.Subperm pool := by
  have hnone : ¬((sampleZ g pool k).1 = none) := by
    rw [sampleZ_none_iff]
    omega
  obtain ⟨w, hw⟩ := Option.ne_none_iff_exists.1 hnone
  exact ⟨w, hw.symm, (sampleZ_some hw.symm).2⟩

/-! ### Helper lemmas about sorting -/

theorem insertB_perm {α : Type} (le : α → α → Bool) (a : α) :
    ∀ l : List α, (insertB le a l).Perm (a :: l)
  | [] => List.Perm.refl _
  | b :: bs => by
    unfold insertB
    split
    · exact List.Perm.refl _
    · exact ((insertB_perm le a bs).cons b).trans (List.Perm.swap _ _ _)

theorem sortByB_perm {α : Type} (le : α → α → Bool) :
    ∀ l : List α, (sortByB le l).Perm l
  | [] => List.Perm.refl _
  | a :: as => (insertB_perm le a (sortByB le as)).trans ((sortByB_perm le as).cons a)

theorem mem_insertB {α : Type} {le : α → α → Bool} {a x : α} {l : List α} :
    x ∈ insertB le a l ↔ x = a ∨ x ∈ l := by
  rw [(insertB_perm le a l).mem_iff]
  simp

theorem insertB_pairwise {α : Type} {le : α → α → Bool}
    (htot : ∀ x y, le x y = true ∨ le y x = true)
    (htr : ∀ x y z, le x y = true → le y z = true → le x z = true) (a : α) :
    ∀ l : List α, l.Pairwise (fun x y => le x y = true) →
      (insertB le a l).Pairwise (fun x y => le x y = true)
  | [], _ => by simp [insertB]
  | b :: bs, hp => by
    unfold insertB
    split
    · next hab =>
      refine List.Pairwise.cons ?_ hp
      intro x hx
      rcases List.mem_cons.1 hx with hxb | hxbs
      · rw [hxb]; exact hab
      · exact htr a b x hab (List.rel_of_pairwise_cons hp hxbs)
    · next hab =>
      have hba : le b a = true := by
        rcases htot a b with h1 | h1
        · exact absurd h1 hab
        · exact h1
      refine List.Pairwise.cons ?_ (insertB_pairwise htot htr a bs (List.Pairwise.of_cons hp))
      intro x hx
      rcases mem_insertB.1 hx with hxa | hxbs
      · rw [hxa]; exact hba
      · exact List.rel_of_pairwise_cons hp hxbs

theorem sortByB_pairwise {α : Type} {le : α → α → Bool}
    (htot : ∀ x y, le x y = true ∨ le y x = true)
    (htr : ∀ x y z, le x y = true → le y z = true → le x z = true) :
    ∀ l : List α, (sortByB le l).Pairwise (fun x y => le x y = true)
  | [] => List.Pairwise.nil
  | a :: as => insertB_pairwise htot htr a (sortByB le as) (sortByB_pairwise htot htr as)

theorem sortStr_perm (l : List String) : (sortStr l).Perm l := sortByB_perm strLe l

theorem sortStr_length (l : List String) : (sortStr l).length = l.length :=
  (sortStr_perm l).length_eq

/-! ### Helper lemmas about the string order -/

theorem charsLe_total : ∀ u v : List Char, charsLe u v = true ∨ charsLe v u = true
  | [], v => by left; rfl
  | a :: as, [] => by right; rfl
  | a :: as, b :: bs => by
    by_cases hab : a.toNat < b.toNat
    · left
      simp [charsLe, hab]
    · by_cases hba : b.toNat < a.toNat
      · right
        simp [charsLe, hba]
      · rcases charsLe_total as bs with h | h
        · left
          simp [charsLe, hab, hba, h]
        · right
          simp [charsLe, hab, hba, h]

theorem charsLe_trans : ∀ u v w : List Char,
    charsLe u v = true → charsLe v w = true → charsLe u w = true
  | [], _, _, _, _ => rfl
  | a :: as, [], w, huv, _ => by simp [charsLe] at huv
  | a :: as, b :: bs, [], _, hvw => by simp [charsLe] at hvw
  | a :: as, b :: bs, c :: cs, huv, hvw => by
    simp only [charsLe] at huv hvw ⊢
    by_cases hab : a.toNat < b.toNat
    · by_cases hbc : b.toNat < c.toNat
      · simp [show a.toNat < c.toNat by omega]
      · simp only [if_neg hbc] at hvw
        by_cases hcb : c.toNat < b.toNat
        · simp [hcb] at hvw
        · simp [show a.toNat < c.toNat by omega]
    · simp only [if_neg hab] at huv
      by_cases hba : b.toNat < a.toNat
      · simp [hba] at huv
      · by_cases hbc : b.toNat < c.toNat
        · simp [show a.toNat < c.toNat by omega]
        · simp only [if_neg hbc] at hvw
          by_cases hcb : c.toNat < b.toNat
          · simp [hcb] at hvw
          · have hac : ¬ a.toNat < c.toNat := by omega
            have hca : ¬ c.toNat < a.toNat := by omega
            simp only [if_neg hac, if_neg hca]
            exact charsLe_trans as bs cs (by simpa [hab, hba] using huv)
              (by simpa [hbc, hcb] using hvw)

theorem strLe_total (a b : String) : strLe a b = true ∨ strLe b a = true :=
  charsLe_total a.data b.data

theorem strLe_trans {a b c : String} (h1 : strLe a b = true) (h2 : strLe b c = true) :
    strLe a c = true :=
  charsLe_trans a.data b.data c.data h1 h2

theorem pairLe_total (x y : String × ℕ) : pairLe x y = true ∨ pairLe y x = true :=
  strLe_total x.1 y.1

theorem pairLe_trans {x y z : String × ℕ} (h1 : pairLe x y = true) (h2 : pairLe y z = true) :
    pairLe x z = true :=
  strLe_trans h1 h2

/-! ### Helper lemmas about the entry builder -/

theorem buildEntries_foldl : ∀ (owners : List OwnershipRecord) (acc : List String × List String),
    owners.foldl
      (fun pools r =>
        if r.token_id = LETS_PLAY_TOKEN_ID then
          (pools.1 ++ List.replicate r.balance.toNat r.address, pools.2)
        else
          (pools.1, pools.2 ++ [r.address]))
      acc
    = (acc.1 ++ owners.flatMap
        (fun r => if r.token_id = LETS_PLAY_TOKEN_ID then
          List.replicate r.balance.toNat r.address else []),
       acc.2 ++ owners.flatMap
        (fun r => if r.token_id = LETS_PLAY_TOKEN_ID then [] else [r.address]))
  | [], acc => by simp
  | r :: rs, acc => by
    by_cases h : r.token_id = LETS_PLAY_TOKEN_ID
    · simp only [List.foldl_cons, if_pos h, buildEntries_foldl rs, List.flatMap_cons, if_pos h]
      simp
    · simp only [List.foldl_cons, if_neg h, buildEntries_foldl rs, List.flatMap_cons, if_neg h]
      simp

theorem buildEntries_fst (owners : List OwnershipRecord) :
    (buildEntries owners).1 = owners.flatMap
      (fun r => if r.token_id = LETS_PLAY_TOKEN_ID then
        List.replicate r.balance.toNat r.address else []) := by
  unfold buildEntries
  rw [buildEntries_foldl]
  simp

theorem buildEntries_snd (owners : List OwnershipRecord) :
    (buildEntries owners).2 = owners.flatMap
      (fun r => if r.token_id = LETS_PLAY_TOKEN_ID then [] else [r.address]) := by
  unfold buildEntries
  rw [buildEntries_foldl]
  simp

theorem mem_buildEntries_fst {owners : List OwnershipRecord} {x : String}
    (h : x ∈ (buildEntries owners).1) : ∃ r ∈ owners, r.address = x := by
  rw [buildEntries_fst] at h
  obtain ⟨r, hr, hx⟩ := List.mem_flatMap.1 h
  refine ⟨r, hr, ?_⟩
  by_cases ht : r.token_id = LETS_PLAY_TOKEN_ID
  · rw [if_pos ht] at hx
    exact ((List.mem_replicate.1 hx).2).symm
  · rw [if_neg ht] at hx
    simp at hx

theorem mem_buildEntries_snd {owners : List OwnershipRecord} {x : String}
    (h : x ∈ (buildEntries owners).2) : ∃ r ∈ owners, r.address = x := by
  rw [buildEntries_snd] at h
  obtain ⟨r, hr, hx⟩ := List.mem_flatMap.1 h
  refine ⟨r, hr, ?_⟩
  by_cases ht : r.token_id = LETS_PLAY_TOKEN_ID
  · rw [if_pos ht] at hx
    simp at hx
  · rw [if_neg ht] at hx
    simp at hx
    exact hx.symm

/-! ### Helper lemmas about counting and the tally -/

theorem count_filter_neg {p : String → Bool} {a : String} {l : List String}
    (h : p a = false) : (l.filter p).count a = 0 := by
  rw [List.count_eq_zero]
  intro hmem
  have := (List.mem_filter.1 hmem).2
  rw [h] at this
  exact Bool.false_ne_true this

theorem tallyPairs_sum (l : List String) :
    ((tallyPairs l).map Prod.snd).sum = l.length := by
  unfold tallyPairs
  rw [List.map_map]
  have : (Prod.snd ∘ fun a => (a, l.count a)) = fun a => l.count a := rfl
  rw [this]
  exact List.sum_map_count_dedup_eq_length l

theorem winnersTable_sum (winners : List String) (mint : List (String × String)) :
    (((winnersTable winners mint).map Prod.snd).sum : ℤ) = (winners.length : ℤ) := by
  unfold winnersTable
  have hperm : ((sortByB pairLe (tallyPairs (winners.map (remapF mint)))).map Prod.snd).Perm
      ((tallyPairs (winners.map (remapF mint))).map Prod.snd) :=
    (sortByB_perm pairLe (tallyPairs (winners.map (remapF mint)))).map Prod.snd
  rw [hperm.sum_eq, tallyPairs_sum, List.length_map]

/-! ### Helper lemmas about the binary64 model -/

theorem nbits_lt (a : ℕ) : a < 2 ^ nbits a := by
  unfold nbits
  by_cases h : a = 0
  · simp [h]
  · rw [if_neg h]
    exact (Nat.log2_lt h).1 (Nat.lt_succ_self _)

theorem nbits_le {a k : ℕ} (h : a < 2 ^ k) : nbits a ≤ k := by
  unfold nbits
  by_cases h0 : a = 0
  · simp [h0]
  · rw [if_neg h0]
    have := (Nat.log2_lt h0).2 h
    omega

theorem two_pow_le_of_nbits {a : ℕ} (h : a ≠ 0) : 2 ^ (nbits a - 1) ≤ a := by
  unfold nbits
  rw [if_neg h]
  simp only [Nat.add_sub_cancel]
  exact (Nat.le_log2 h).1 (le_refl _)

theorem roundSig_exact {n : ℤ} (e : ℤ) (h : n.natAbs < 2 ^ 53) : roundSig n e = ⟨n, e⟩ := by
  unfold roundSig
  rw [if_pos (nbits_le h)]

theorem rshiftNE_ge (m s : ℕ) : m / 2 ^ s ≤ rshiftNE m s := by
  unfold rshiftNE
  by_cases h : s = 0
  · rw [if_pos h, h]
    simp
  · rw [if_neg h]
    dsimp only
    split_ifs <;> omega

theorem rshiftNE_le (m s : ℕ) (hs : s ≠ 0) : rshiftNE m s ≤ (m + 2 ^ (s - 1)) / 2 ^ s := by
  have hpos : 0 < 2 ^ s := pow_pos (by norm_num) s
  rw [Nat.le_div_iff_mul_le hpos]
  unfold rshiftNE
  rw [if_neg hs]
  dsimp only
  have h5 : m / 2 ^ s * 2 ^ s + m % 2 ^ s = m := Nat.div_add_mod' m (2 ^ s)
  have hh : 2 ^ (s - 1) + 2 ^ (s - 1) = 2 ^ s := by
    have h1 : s - 1 + 1 = s := by omega
    calc 2 ^ (s - 1) + 2 ^ (s - 1) = 2 ^ (s - 1) * 2 := by ring
    _ = 2 ^ (s - 1 + 1) := by rw [pow_succ]
    _ = 2 ^ s := by rw [h1]
  split_ifs with h1 h2 h3
  · calc m / 2 ^ s * 2 ^ s ≤ m := Nat.div_mul_le_self m (2 ^ s)
    _ ≤ m + 2 ^ (s - 1) := Nat.le_add_right _ _
  · have hgoal : (m / 2 ^ s + 1) * 2 ^ s = m / 2 ^ s * 2 ^ s + 2 ^ s := by ring
    rw [hgoal]
    omega
  · calc m / 2 ^ s * 2 ^ s ≤ m := Nat.div_mul_le_self m (2 ^ s)
    _ ≤ m + 2 ^ (s - 1) := Nat.le_add_right _ _
  · have hgoal : (m / 2 ^ s + 1) * 2 ^ s = m / 2 ^ s * 2 ^ s + 2 ^ s := by ring
    rw [hgoal]
    omega

theorem lpPicks09_formula (n : ℕ) (hn : n ≤ 2 ^ 49) :
    lpPicks09 (n : ℤ) = ((9 * n / 10 : ℕ) : ℤ) := by
  have hd : toDouble (n : ℤ) = ⟨(n : ℤ), 0⟩ := by
    apply roundSig_exact
    simp only [Int.natAbs_ofNat]
    calc n ≤ 2 ^ 49 := hn
    _ < 2 ^ 53 := by norm_num
  have hA : ((8106479329266893 : ℤ) * (n : ℤ)).natAbs = 8106479329266893 * n := by
    rw [Int.natAbs_mul]
    simp
  have hAnn : ¬ ((8106479329266893 : ℤ) * (n : ℤ) < 0) := not_lt.2 (by positivity)
  unfold lpPicks09
  rw [hd]
  show dtrunc (roundSig ((8106479329266893 : ℤ) * (n : ℤ)) (-53 + 0)) = _
  unfold roundSig
  rw [hA]
  by_cases hb : nbits (8106479329266893 * n) ≤ 53
  · rw [if_pos hb]
    unfold dtrunc
    rw [if_neg (by norm_num), if_neg hAnn, hA]
    have hdiv : 8106479329266893 * n / 2 ^ (-(-53 + 0 : ℤ)).toNat = 9 * n / 10 := by
      have ht : (-(-53 + 0 : ℤ)).toNat = 53 := by omega
      rw [ht]
      have hp : (2 : ℕ) ^ 53 = 9007199254740992 := by norm_num
      rw [hp]
      omega
    rw [hdiv]
  · rw [if_neg hb, if_neg hAnn]
    set b := nbits (8106479329266893 * n) with hbdef
    set s := b - 53 with hsdef
    set a := 8106479329266893 * n with hadef
    set q := rshiftNE a s with hqdef
    set N := 9 * n / 10 with hNdef
    have hane : a ≠ 0 := by
      intro h0
      rw [hadef] at h0
      have : nbits 0 ≤ 53 := by norm_num [nbits]
      rw [← h0] at this
      exact hb this
    have haup : a < 2 ^ 102 := by
      calc a = 8106479329266893 * n := hadef
      _ ≤ 8106479329266893 * 2 ^ 49 := Nat.mul_le_mul_left _ hn
      _ < 2 ^ 102 := by norm_num
    have hble : b ≤ 102 := nbits_le haup
    have hbge : 54 ≤ b := by omega
    have hs1 : 1 ≤ s := by omega
    have hs49 : s ≤ 49 := by omega
    have halow : 2 ^ 53 ≤ a := by
      calc (2 : ℕ) ^ 53 ≤ 2 ^ (b - 1) := Nat.pow_le_pow_right (by norm_num) (by omega)
      _ ≤ a := two_pow_le_of_nbits hane
    have hP : 0 < 2 ^ s := pow_pos (by norm_num) s
    have hQ : 0 < 2 ^ (53 - s) := pow_pos (by norm_num) (53 - s)
    have hQP : 2 ^ (53 - s) * 2 ^ s = 2 ^ 53 := by
      rw [← pow_add]
      congr 1
      omega
    -- lower bound: N * 2 ^ (53 - s) ≤ q
    have hl1 : N * 2 ^ 53 ≤ a := by
      rw [hadef, hNdef]
      have hp : (2 : ℕ) ^ 53 = 9007199254740992 := by norm_num
      rw [hp]
      omega
    have hl2 : N * 2 ^ (53 - s) ≤ a / 2 ^ s := by
      rw [Nat.le_div_iff_mul_le hP, mul_assoc, hQP]
      exact hl1
    have hlow : N * 2 ^ (53 - s) ≤ q := le_trans hl2 (rshiftNE_ge a s)
    -- upper bound: q < (N + 1) * 2 ^ (53 - s)
    have hu1 : a + 2 ^ (s - 1) < (N + 1) * 2 ^ 53 := by
      have hH : 2 ^ (s - 1) ≤ 2 ^ 48 := Nat.pow_le_pow_right (by norm_num) (by omega)
      rw [hadef, hNdef]
      have hp : (2 : ℕ) ^ 53 = 9007199254740992 := by norm_num
      rw [hp]
      omega
    have hu2 : (a + 2 ^ (s - 1)) / 2 ^ s < (N + 1) * 2 ^ (53 - s) := by
      rw [Nat.div_lt_iff_lt_mul hP, mul_assoc, hQP]
      exact hu1
    have hup : q < (N + 1) * 2 ^ (53 - s) :=
      lt_of_le_of_lt (rshiftNE_le a s (by omega)) hu2
    have hqQ : q / 2 ^ (53 - s) = N := Nat.div_eq_of_lt_le hlow hup
    -- assemble the truncation
    unfold dtrunc
    have hexp : ¬ (0 ≤ (-53 + 0 : ℤ) + (s : ℤ)) := by omega
    rw [if_neg hexp]
    have hqnn : ¬ (((rshiftNE a s : ℕ) : ℤ) < 0) := not_lt.2 (by positivity)
    rw [if_neg hqnn]
    have htn : (-((-53 + 0 : ℤ) + (s : ℤ))).toNat = 53 - s := by omega
    rw [htn]
    simp only [Int.natAbs_ofNat]
    rw [hqQ]

theorem lpPicks10_formula (n : ℕ) (hn : n < 2 ^ 53) : lpPicks10 (n : ℤ) = (n : ℤ) := by
  have hd : toDouble (n : ℤ) = ⟨(n : ℤ), 0⟩ := by
    apply roundSig_exact
    simpa using hn
  unfold lpPicks10
  rw [hd]
  unfold dmul
  simp only [one_mul, add_zero, zero_add]
  rw [roundSig_exact 0 (by simpa using hn)]
  unfold dtrunc
  rw [if_pos (by norm_num : (0 : ℤ) ≤ 0)]
  simp

theorem lpPicks09_neg_one : lpPicks09 (-1) = 0 := by
  have hd : toDouble (-1) = ⟨-1, 0⟩ := roundSig_exact 0 (by norm_num)
  unfold lpPicks09
  rw [hd]
  unfold dmul float09
  simp only []
  rw [roundSig_exact (-53 + 0) (by norm_num)]
  unfold dtrunc
  rw [if_neg (by norm_num), if_pos (by norm_num : (8106479329266893 : ℤ) * (-1) < 0)]
  norm_num
  have h53 : (53 : ℤ).toNat = 53 := rfl
  rw [h53]
  decide

/-! ### Helper lemmas about the pipelines -/

theorem raffleBase_some_length {g : Gen} {owners : List OwnershipRecord} {supply : ℤ}
    {w : List String} (h : (raffleBase g owners supply).1 = some w) :
    (w.length : ℤ) = supply := by
  simp only [raffleBase] at h
  rcases h1 : sampleZ g (buildEntries owners).1 (lpPicks09 supply) with ⟨r1, g1⟩
  rw [h1] at h
  cases r1 with
  | none => simp at h
  | some lw =>
    dsimp only at h
    rcases h2 : sampleZ g1 (buildEntries owners).2 (basePicks09 supply) with ⟨r2, g2⟩
    rw [h2] at h
    cases r2 with
    | none => simp at h
    | some bw =>
      dsimp only at h
      have h1f : (sampleZ g (buildEntries owners).1 (lpPicks09 supply)).1 = some lw := by
        rw [h1]
      have h2f : (sampleZ g1 (buildEntries owners).2 (basePicks09 supply)).1 = some bw := by
        rw [h2]
      obtain ⟨hp1, hl1, _⟩ := sampleZ_some h1f
      obtain ⟨hp2, hl2, _⟩ := sampleZ_some h2f
      have hw : w = sortStr (sortStr lw ++ sortStr bw) := by
        have := h.symm
        injection this with hinj
      have hwl : w.length = lw.length + bw.length := by
        rw [hw, sortStr_length, List.length_append, sortStr_length, sortStr_length]
      unfold basePicks09 at hl2
      rw [hwl]
      push_cast
      omega

theorem drawGolden_none_iff (g : Gen) (p d np : List String) (k : ℤ) :
    (drawGolden g p d np k).1 = none ↔
      (k < 0 ∨ (p.length : ℤ) + (np.length : ℤ) + (d.length : ℤ) < k) := by
  unfold drawGolden
  by_cases h1 : (p.length : ℤ) ≥ k
  · rw [if_pos h1, sampleZ_none_iff]
    omega
  · rw [if_neg h1]
    dsimp only
    by_cases h2 : (np.length : ℤ) ≥ k - (p.length : ℤ)
    · rw [if_pos h2]
      rcases hp : sampleZ g np (k - (p.length : ℤ)) with ⟨r, g1⟩
      have hr1 : (sampleZ g np (k - (p.length : ℤ))).1 = r := by rw [hp]
      cases r with
      | none =>
        rw [sampleZ_none_iff] at hr1
        exfalso
        omega
      | some w =>
        simp only []
        constructor
        · intro hcontra
          exact absurd hcontra (by simp)
        · intro hor
          omega
    · rw [if_neg h2]
      rcases hp : sampleZ g d (k - (p.length : ℤ) - (np.length : ℤ)) with ⟨r, g1⟩
      have hr1 : (sampleZ g d (k - (p.length : ℤ) - (np.length : ℤ))).1 = r := by rw [hp]
      cases r with
      | none =>
        rw [sampleZ_none_iff] at hr1
        simp only []
        constructor
        · intro _
          omega
        · intro _
          trivial
      | some w =>
        have hnn : ¬ ((sampleZ g d (k - (p.length : ℤ) - (np.length : ℤ))).1 = none) := by
          rw [hr1]
          simp
        rw [sampleZ_none_iff] at hnn
        push_neg at hnn
        simp only []
        constructor
        · intro hcontra
          exact absurd hcontra (by simp)
        · intro hor
          omega

/-! ### Claim theorems -/

/-- C1: the full selection pipeline (seed the generator with the prefix plus
the seed string, build pools, draw winners, remap, tally) is a pure function
of (ownership records, preference map, mint-wallet map, seed string, supply):
two runs on identical inputs produce identical winner tallies, in both the
base and the preference-aware variant. -/
theorem noble_c1_pipeline_deterministic :
    (∀ (o1 o2 : List OwnershipRecord) (m1 m2 : List (String × String))
      (h1 h2 : String) (s1 s2 : ℤ), o1 = o2 → m1 = m2 → h1 = h2 → s1 = s2 →
      mainBase o1 m1 h1 s1 = mainBase o2 m2 h2 s2) ∧
    (∀ (o1 o2 : List OwnershipRecord) (p1 p2 m1 m2 : List (String × String))
      (h1 h2 : String) (s1 s2 : ℤ), o1 = o2 → p1 = p2 → m1 = m2 → h1 = h2 → s1 = s2 →
      main038 o1 p1 m1 h1 s1 = main038 o2 p2 m2 h2 s2) := by
  constructor
  · intro o1 o2 m1 m2 h1 h2 s1 s2 ho hm hh hs
    rw [ho, hm, hh, hs]
  · intro o1 o2 p1 p2 m1 m2 h1 h2 s1 s2 ho hp hm hh hs
    rw [ho, hp, hm, hh, hs]

/-- Witness for C1 at a concrete input. -/
theorem noble_c1_witness :
    mainBase [⟨"X", 34, 3⟩] [] "0xabc" 0 = mainBase [⟨"X", 34, 3⟩] [] "0xabc" 0 :=
  noble_c1_pipeline_deterministic.1 _ _ _ _ _ _ _ _ rfl rfl rfl rfl

/-- C3: no address in `IGNORED_ADDRESSES` appears in the golden or base
entry pool built from the filtered ownership records: the filter is applied
before entry construction. -/
theorem noble_c3_ignored_filtered (rows : List OwnershipRecord) (a : String)
    (ha : a ∈ IGNORED_ADDRESSES) :
    a ∉ (buildEntries (filterIgnored rows)).1 ∧
    a ∉ (buildEntries (filterIgnored rows)).2 := by
  constructor
  · intro hmem
    obtain ⟨r, hr, hra⟩ := mem_buildEntries_fst hmem
    have hf := (List.mem_filter.1 hr).2
    rw [hra] at hf
    simp at hf
    exact hf ha
  · intro hmem
    obtain ⟨r, hr, hra⟩ := mem_buildEntries_snd hmem
    have hf := (List.mem_filter.1 hr).2
    rw [hra] at hf
    simp at hf
    exact hf ha

/-- Witness for C3 at a concrete input. -/
theorem noble_c3_witness :
    "0x0000000000000000000000000000000000000000" ∉
      (buildEntries (filterIgnored
        [⟨"0x0000000000000000000000000000000000000000", 34, 2⟩, ⟨"0xabc", 34, 1⟩])).1 :=
  (noble_c3_ignored_filtered _ _ (by decide)).1

/-- C4: whenever the base pipeline completes (every sampling draw succeeds),
the counts in the persisted winner tally sum to the configured total supply:
remapping and tallying neither drop nor duplicate winners. -/
theorem noble_c4_tally_sum_eq_supply (ownerRows : List OwnershipRecord)
    (mintRows : List (String × String)) (hashStr : String) (supply : ℤ)
    (tally : List (String × ℕ))
    (h : mainBase ownerRows mintRows hashStr supply = some tally) :
    ((tally.map Prod.snd).sum : ℤ) = supply := by
  simp only [mainBase] at h
  rcases hr : (raffleBase (seedGen ("NobleRaffle" ++ "-" ++ hashStr))
      (filterIgnored ownerRows) supply).1 with _ | winners
  · rw [hr] at h
    simp at h
  · rw [hr] at h
    dsimp only at h
    injection h with hinj
    rw [← hinj, winnersTable_sum]
    exact raffleBase_some_length hr

/-- Witness for C4 at a concrete input. -/
theorem noble_c4_witness :
    mainBase [⟨"Z", 7, 1⟩] [] "0xabc" 0 = some [] ∧
    ((([] : List (String × ℕ)).map Prod.snd).sum : ℤ) = 0 :=
  ⟨by decide, noble_c4_tally_sum_eq_supply [⟨"Z", 7, 1⟩] [] "0xabc" 0 [] (by decide)⟩

/-- C6: the entry builder contributes, for each record in order, `balance`
copies of its address to the golden pool when its token is the golden token,
and exactly one copy of its address to the base pool otherwise (balance
ignored); an empty record list yields two empty pools. -/
theorem noble_c6_entry_builder :
    buildEntries [] = ([], []) ∧
    (∀ owners : List OwnershipRecord, (buildEntries owners).1 = owners.flatMap
      (fun r => if r.token_id = LETS_PLAY_TOKEN_ID then
        List.replicate r.balance.toNat r.address else [])) ∧
    (∀ owners : List OwnershipRecord, (buildEntries owners).2 = owners.flatMap
      (fun r => if r.token_id = LETS_PLAY_TOKEN_ID then [] else [r.address])) :=
  ⟨rfl, buildEntries_fst, buildEntries_snd⟩

/-- C2: the tiered golden draw, for any quota `k` the three tiers can jointly
cover: when participate can fill the quota alone, the winners are one
`k`-sized without-replacement sample from participate only; otherwise all of
participate wins and, with `remaining = k - len(participate)`, either a
`remaining`-sized sample from no_preference is appended (when that tier
suffices) or all of no_preference wins plus a sample of the rest drawn from
dont_participate.  No lower tier is drawn from while a higher tier could
still fill the quota. -/
theorem noble_c2_quota_fill_tiers (g : Gen) (participate dont noPref : List String)
    (k : ℕ) (htotal : k ≤ participate.length + noPref.length + dont.length) :
    ∃ w, (drawGolden g participate dont noPref (k : ℤ)).1 = some w ∧
      (k ≤ participate.length → w.length = k ∧ w.Subperm participate) ∧
      (participate.length < k → k - participate.length ≤ noPref.length →
        ∃ ws, w = participate ++ ws ∧ ws.length = k - participate.length ∧
          ws.Subperm noPref) ∧
      (participate.length < k → noPref.length < k - participate.length →
        ∃ ds, w = participate ++ (noPref ++ ds) ∧
          ds.length = k - participate.length - noPref.length ∧ ds.Subperm dont) := by
  unfold drawGolden
  by_cases h1 : (participate.length : ℤ) ≥ (k : ℤ)
  · rw [if_pos h1]
    obtain ⟨w, hw, hlen, hsub⟩ := sampleZ_succeeds g participate (k : ℤ) (by positivity) h1
    exact ⟨w, hw, fun _ => ⟨by omega, hsub⟩, fun hlt _ => absurd hlt (by omega),
      fun hlt _ => absurd hlt (by omega)⟩
  · rw [if_neg h1]
    dsimp only
    have hplt : participate.length < k := by omega
    by_cases h2 : (noPref.length : ℤ) ≥ (k : ℤ) - (participate.length : ℤ)
    · rw [if_pos h2]
      obtain ⟨ws, hws, hlen, hsub⟩ :=
        sampleZ_succeeds g noPref ((k : ℤ) - (participate.length : ℤ)) (by omega) h2
      rcases hpair : sampleZ g noPref ((k : ℤ) - (participate.length : ℤ)) with ⟨r, g1⟩
      rw [hpair] at hws
      have hr : r = some ws := by simpa using hws
      subst hr
      refine ⟨participate ++ ws, by simp, fun hk => absurd hk (by omega),
        fun _ _ => ⟨ws, rfl, by omega, hsub⟩, fun _ hnp => absurd hnp (by omega)⟩
    · rw [if_neg h2]
      obtain ⟨ds, hds, hlen, hsub⟩ :=
        sampleZ_succeeds g dont
          ((k : ℤ) - (participate.length : ℤ) - (noPref.length : ℤ)) (by omega) (by omega)
      rcases hpair : sampleZ g dont
          ((k : ℤ) - (participate.length : ℤ) - (noPref.length : ℤ)) with ⟨r, g1⟩
      rw [hpair] at hds
      have hr : r = some ds := by simpa using hds
      subst hr
      refine ⟨participate ++ (noPref ++ ds), by simp, fun hk => absurd hk (by omega),
        fun _ hnp => absurd hnp (by omega), fun _ _ => ⟨ds, rfl, by omega, hsub⟩⟩

/-- Witness for C2 at a concrete input: participate = [A, B],
no_preference = [C], dont_participate = [D, E], quota 4. -/
theorem noble_c2_witness :
    ∃ w, (drawGolden 7 ["A", "B"] ["D", "E"] ["C"] ((4 : ℕ) : ℤ)).1 = some w ∧
      ((4 : ℕ) ≤ (["A", "B"] : List String).length →
        w.length = 4 ∧ w.Subperm ["A", "B"]) ∧
      ((["A", "B"] : List String).length < 4 →
        4 - (["A", "B"] : List String).length ≤ (["C"] : List String).length →
        ∃ ws, w = ["A", "B"] ++ ws ∧ ws.length = 4 - (["A", "B"] : List String).length ∧
          ws.Subperm ["C"]) ∧
      ((["A", "B"] : List String).length < 4 →
        (["C"] : List String).length < 4 - (["A", "B"] : List String).length →
        ∃ ds, w = ["A", "B"] ++ (["C"] ++ ds) ∧
          ds.length = 4 - (["A", "B"] : List String).length - (["C"] : List String).length ∧
          ds.Subperm ["D", "E"]) :=
  noble_c2_quota_fill_tiers 7 ["A", "B"] ["D", "E"] ["C"] 4 (by decide)

/-- C8 counterexample: `random.sample` also fails on a negative requested
size, so the draw can fail although no pool holds fewer entries than
requested; reachable via a negative `--supply`. -/
theorem noble_c8_counterexample :
    (sampleZ 0 ["a"] (-1)).1 = none ∧
    ¬ (((["a"] : List String).length : ℤ) < -1) ∧
    (drawGolden 0 [] [] [] (-1)).1 = none ∧
    ¬ (((([] : List String).length : ℤ) + (([] : List String).length : ℤ) +
        (([] : List String).length : ℤ)) < -1) := by
  decide

/-- C8 (amended): a sampling draw fails exactly when the requested size is
negative or exceeds the source pool; the preference-aware golden draw fails
exactly when the quota is negative or participate, no_preference and
dont_participate together hold fewer entries; and a failed draw aborts the
run with no winners table produced. -/
theorem noble_c8_amended :
    (∀ (g : Gen) (pool : List String) (k : ℤ),
      (sampleZ g pool k).1 = none ↔ (k < 0 ∨ (pool.length : ℤ) < k)) ∧
    (∀ (g : Gen) (p d np : List String) (k : ℤ),
      (drawGolden g p d np k).1 = none ↔
        (k < 0 ∨ (p.length : ℤ) + (np.length : ℤ) + (d.length : ℤ) < k)) ∧
    (∀ (ownerRows : List OwnershipRecord) (optRows mintRows : List (String × String))
      (hashStr : String) (supply : ℤ),
      (raffle038 (seedGen ("NobleRaffle" ++ "-" ++ hashStr)) (filterIgnored ownerRows)
        (optRows.map parseOptionRow) supply).1 = none →
      main038 ownerRows optRows mintRows hashStr supply = none) := by
  refine ⟨sampleZ_none_iff, drawGolden_none_iff, ?_⟩
  intro ownerRows optRows mintRows hashStr supply h
  simp only [main038]
  rw [h]

/-- Witness for C8 at a concrete input: empty pools and supply 5 make the
golden draw fail, and the run produces no table. -/
theorem noble_c8_witness : main038 [] [] [] "0xabc" 5 = none :=
  noble_c8_amended.2.2 [] [] [] "0xabc" 5 (by
    simp [raffle038, buildEntries, partitionPrefs, drawGolden, sampleZ, lpPicks10,
      basePicks10, dmul, toDouble, roundSig, nbits, dtrunc, filterIgnored, Nat.log2])

theorem count_filter_eq (p : String → Bool) (a : String) (l : List String) :
    (l.filter p).count a = if p a = true then l.count a else 0 := by
  by_cases h : p a = true
  · rw [if_pos h, List.count_filter h]
  · rw [if_neg h]
    exact count_filter_neg (by simpa using h)

/-- C7: the preference partitioner produces exactly three filters of the
golden pool — participate (mapped to true), declined (present and mapped to
false) and no-preference (absent) — each a subsequence of the pool with
duplicates and order preserved, and every pool entry lands in exactly one of
the three (the per-address occurrence counts add up). -/
theorem noble_c7_partition (pool : List String) (opts : List (String × Bool)) :
    ((partitionPrefs pool opts).1.Sublist pool ∧
     (partitionPrefs pool opts).2.1.Sublist pool ∧
     (partitionPrefs pool opts).2.2.Sublist pool) ∧
    (∀ a, a ∈ (partitionPrefs pool opts).1 ↔ a ∈ pool ∧ dictGet opts a = some true) ∧
    (∀ a, a ∈ (partitionPrefs pool opts).2.1 ↔ a ∈ pool ∧ dictGet opts a = some false) ∧
    (∀ a, a ∈ (partitionPrefs pool opts).2.2 ↔ a ∈ pool ∧ dictGet opts a = none) ∧
    (∀ a, (partitionPrefs pool opts).1.count a + (partitionPrefs pool opts).2.1.count a +
      (partitionPrefs pool opts).2.2.count a = pool.count a) := by
  unfold partitionPrefs
  refine ⟨⟨List.filter_sublist pool, List.filter_sublist pool, List.filter_sublist pool⟩,
    ?_, ?_, ?_, ?_⟩
  · intro a
    rw [List.mem_filter]
    simp
  · intro a
    rw [List.mem_filter]
    simp
  · intro a
    rw [List.mem_filter]
    simp [Option.isNone_iff_eq_none]
  · intro a
    rw [count_filter_eq (fun x => dictGet opts x == some true) a pool,
      count_filter_eq (fun x => dictGet opts x == some false) a pool,
      count_filter_eq (fun x => (dictGet opts x).isNone) a pool]
    rcases hcase : dictGet opts a with _ | b
    · simp [hcase]
    · cases b
      · simp [hcase]
      · simp [hcase]

/-- C9: the consolidator replaces each winner address by its mint-wallet
mapping when present and leaves it unchanged otherwise; the persisted table
has one row per distinct remapped address whose count is the number of
winners remapping to it (so counts of distinct hold addresses mapped to one
mint address combine additively), no zero-count row appears, and the rows
are sorted by address ascending. -/
theorem noble_c9_consolidator (winners : List String) (mint : List (String × String)) :
    (∀ a, dictGet mint a = none → remapF mint a = a) ∧
    (winnersTable winners mint).Pairwise (fun x y => strLe x.1 y.1 = true) ∧
    (∀ x c, (x, c) ∈ winnersTable winners mint →
      c = (winners.map (remapF mint)).count x ∧ 0 < c) ∧
    (∀ x, (∃ wi ∈ winners, remapF mint wi = x) ↔
      ∃ c, (x, c) ∈ winnersTable winners mint) := by
  refine ⟨?_, ?_, ?_, ?_⟩
  · intro a h
    unfold remapF
    rw [h]
    rfl
  · exact sortByB_pairwise pairLe_total (fun x y z h1 h2 => pairLe_trans h1 h2) _
  · intro x c hmem
    have hmem2 : (x, c) ∈ tallyPairs (winners.map (remapF mint)) :=
      ((sortByB_perm pairLe _).mem_iff).1 hmem
    unfold tallyPairs at hmem2
    obtain ⟨a, ha, heq⟩ := List.mem_map.1 hmem2
    have hax : a = x := congrArg Prod.fst heq
    have hac : (winners.map (remapF mint)).count a = c := congrArg Prod.snd heq
    subst hax
    refine ⟨hac.symm, ?_⟩
    rw [← hac]
    exact List.count_pos_iff.2 (List.mem_dedup.1 ha)
  · intro x
    constructor
    · rintro ⟨wi, hwi, hre⟩
      have hx : x ∈ winners.map (remapF mint) := List.mem_map.2 ⟨wi, hwi, hre⟩
      refine ⟨(winners.map (remapF mint)).count x, ?_⟩
      apply ((sortByB_perm pairLe _).mem_iff).2
      unfold tallyPairs
      exact List.mem_map.2 ⟨x, List.mem_dedup.2 hx, rfl⟩
    · rintro ⟨c, hc⟩
      have hmem2 : (x, c) ∈ tallyPairs (winners.map (remapF mint)) :=
        ((sortByB_perm pairLe _).mem_iff).1 hc
      unfold tallyPairs at hmem2
      obtain ⟨a, ha, heq⟩ := List.mem_map.1 hmem2
      have hax : a = x := congrArg Prod.fst heq
      have hx : x ∈ winners.map (remapF mint) := hax ▸ List.mem_dedup.1 ha
      exact List.mem_map.1 hx

/-- Witness for C9 at a concrete input: two hold addresses remapping to one
mint address combine their counts, and an unmapped address passes through. -/
theorem noble_c9_witness :
    remapF [("b", "a")] "z" = "z" ∧
    (3 : ℕ) = ((["b", "a", "a"] : List String).map (remapF [("b", "a")])).count "a" ∧
    (0 : ℕ) < 3 :=
  ⟨(noble_c9_consolidator ["b", "a", "a"] [("b", "a")]).1 "z" (by decide),
   ((noble_c9_consolidator ["b", "a", "a"] [("b", "a")]).2.2.1 "a" 3 (by decide)).1,
   ((noble_c9_consolidator ["b", "a", "a"] [("b", "a")]).2.2.1 "a" 3 (by decide)).2⟩

/-- C10: a raffle-options row parses to `True` exactly when its second field
lowercases to `"true"`; any other value (such as `"1"` or `"yes"`) parses to
`False`, which places that address in the declined tier rather than the
no-preference tier. -/
theorem noble_c10_option_parse :
    (∀ a b, (parseOptionRow (a, b)).2 = true ↔ strLower b = "true") ∧
    (parseOptionRow ("w", "1")).2 = false ∧
    (parseOptionRow ("w", "yes")).2 = false ∧
    (parseOptionRow ("w", "TRUE")).2 = true ∧
    (∀ (pool : List String) (a b : String), strLower b ≠ "true" → a ∈ pool →
      a ∈ (partitionPrefs pool [parseOptionRow (a, b)]).2.1 ∧
      a ∉ (partitionPrefs pool [parseOptionRow (a, b)]).2.2 ∧
      a ∉ (partitionPrefs pool [parseOptionRow (a, b)]).1) := by
  refine ⟨?_, by decide, by decide, by decide, ?_⟩
  · intro a b
    unfold parseOptionRow
    simp
  · intro pool a b hb ha
    have hv : (strLower b == "true") = false := by
      simp [hb]
    have hget : dictGet [parseOptionRow (a, b)] a = some false := by
      unfold dictGet parseOptionRow
      simp [hv]
    refine ⟨?_, ?_, ?_⟩
    · unfold partitionPrefs
      exact List.mem_filter.2 ⟨ha, by simp [hget]⟩
    · intro hmem
      have := (List.mem_filter.1 hmem).2
      simp [hget] at this
    · intro hmem
      have := (List.mem_filter.1 hmem).2
      simp [hget] at this

/-- Witness for C10 at a concrete input: the malformed value `"1"` sends the
address to the declined tier. -/
theorem noble_c10_witness :
    "h1" ∈ (partitionPrefs ["h1"] [parseOptionRow ("h1", "1")]).2.1 ∧
    "h1" ∉ (partitionPrefs ["h1"] [parseOptionRow ("h1", "1")]).2.2 ∧
    "h1" ∉ (partitionPrefs ["h1"] [parseOptionRow ("h1", "1")]).1 :=
  noble_c10_option_parse.2.2.2.2 ["h1"] "h1" "1" (by decide) (by decide)

/-- C5 counterexample: at total supply `-1` (reachable via `--supply -1`)
the base variant computes `int(0.9 * -1) = 0` — Python `int()` truncates
towards zero — while `floor(0.9 * (-1)) = -1`, so the golden share is not
`floor(0.9 * total)` for every integer total. -/
theorem noble_c5_counterexample :
    lpPicks09 (-1) = 0 ∧ Int.fdiv (9 * (-1)) 10 = -1 ∧ (0 : ℤ) ≠ -1 :=
  ⟨lpPicks09_neg_one, by decide, by decide⟩

/-- C5 (amended): for nonnegative total supplies in the float-exact range
(`total ≤ 2^49` for the 0.9 variant, `total < 2^53` for the 1.0 variant) the
golden share equals `floor(participationFraction * total)`, and
`goldenShare + baseShare = total` holds for every integer total. -/
theorem noble_c5_amended :
    (∀ n : ℕ, n ≤ 2 ^ 49 → lpPicks09 (n : ℤ) = ((9 * n / 10 : ℕ) : ℤ)) ∧
    (∀ n : ℕ, n < 2 ^ 53 → lpPicks10 (n : ℤ) = (n : ℤ)) ∧
    (∀ s : ℤ, lpPicks09 s + basePicks09 s = s) ∧
    (∀ s : ℤ, lpPicks10 s + basePicks10 s = s) := by
  refine ⟨lpPicks09_formula, lpPicks10_formula, ?_, ?_⟩
  · intro s
    unfold basePicks09
    ring
  · intro s
    unfold basePicks10
    ring

/-- Witness for C5 at concrete inputs. -/
theorem noble_c5_witness :
    (10 : ℕ) ≤ 2 ^ 49 ∧ lpPicks09 ((10 : ℕ) : ℤ) = ((9 * 10 / 10 : ℕ) : ℤ) ∧
    (7 : ℕ) < 2 ^ 53 ∧ lpPicks10 ((7 : ℕ) : ℤ) = ((7 : ℕ) : ℤ) :=
  ⟨by norm_num, noble_c5_amended.1 10 (by norm_num), by norm_num,
   noble_c5_amended.2.1 7 (by norm_num)⟩
